import Mathlib

/-!
Verification of the animation-editor core (`src/animation-editor/core.ts`):
track store, time evaluation, scrub/jump semantics, and the snapshot
history engine.  Times and values are modelled as rationals; the JS `Map`
keyed by track name is modelled as an association list in insertion order
(scrubbing iterates `tracksByName.values()` in that order); callbacks are
modelled by a presence flag on the track definition plus an explicit trace
of callback-invocation events returned by each operation.
-/

namespace AnimEditor

/-- Track field types, from `types.ts`: `'number' | 'enum' | 'func'`. -/
inductive TrackType where
  | number
  | enum
  | func
deriving DecidableEq, Repr

/-- An opaque argument value carried by a func element (`args: unknown[]`
in `types.ts`; the editing UI distinguishes text and number arguments). -/
inductive JsVal where
  | num (q : ℚ)
  | str (s : String)
deriving DecidableEq, Repr

/-- `FuncElement` from `types.ts`: `{funcName: string, args: unknown[]}`. -/
structure FuncElement where
  funcName : String
  args : List JsVal
deriving DecidableEq, Repr

/-- One element payload: `number | string | FuncElement` from `types.ts`. -/
inductive Element where
  | num (v : ℚ)
  | str (s : String)
  | func (f : FuncElement)
deriving DecidableEq, Repr

instance : Inhabited Element := ⟨Element.num 0⟩

/-- `elements[i] as number` — the unchecked TS cast used by
`evaluateNumberTrack`; non-number payloads yield a junk default. -/
def Element.asNum : Element → ℚ
  | Element.num v => v
  | _ => 0

/-- `elements[i] as string` — the unchecked TS cast used by
`evaluateEnumTrack`. -/
def Element.asStr : Element → String
  | Element.str s => s
  | _ => ""

/-- `elements[i] as FuncElement` — the unchecked TS cast used by
`fireFuncHits`. -/
def Element.asFunc : Element → FuncElement
  | Element.func f => f
  | _ => ⟨"", []⟩

/-- `TrackDatum` from `types.ts`: `{time: number, element: ...}`. -/
structure TrackDatum where
  time : ℚ
  element : Element
deriving DecidableEq, Repr

/-- `TrackDef` from `types.ts`.  The optional callbacks
`updateNumber?` / `updateEnum?` / `updateFunc?` are modelled by presence
flags; their invocations are recorded as `Event`s. -/
structure TrackDef where
  name : String
  fieldType : TrackType
  data : List TrackDatum
  hasUpdateNumber : Bool
  hasUpdateEnum : Bool
  hasUpdateFunc : Bool
  low : Option ℚ
  high : Option ℚ
deriving DecidableEq, Repr

/-- `TrackRuntime` from `types.ts`. -/
structure TrackRuntime where
  id : String
  def_ : TrackDef
  times : List ℚ
  elements : List Element
  low : ℚ
  high : ℚ
deriving DecidableEq, Repr

/-- One recorded callback invocation: `updateNumber(v)`, `updateEnum(v)`,
or `updateFunc(funcName, ...args)`. -/
inductive Event where
  | callNumber (v : ℚ)
  | callEnum (v : String)
  | callFunc (funcName : String) (args : List JsVal)
deriving DecidableEq, Repr

/-- `DEFAULT_NUMBER_LOW` from `constants.ts`. -/
def DEFAULT_NUMBER_LOW : ℚ := 0

/-- `DEFAULT_NUMBER_HIGH` from `constants.ts`. -/
def DEFAULT_NUMBER_HIGH : ℚ := 1

/-- `DEFAULT_TIMELINE_DURATION` from `constants.ts`. -/
def DEFAULT_TIMELINE_DURATION : ℚ := 100

/-- Modelled from the spec: the `utils.ts` module is absent from the
sources, only imported by `core.ts`.  Spec §4.1: `upperBound(times, t)`
is the smallest index `i` such that `times[i] > t`, or `times.length`
if none. -/
def upperBound (times : List ℚ) (t : ℚ) : Nat :=
  match times with
  | [] => 0
  | x :: xs => if t < x then 0 else upperBound xs t + 1

/-- Modelled from the spec: `lerp` from the absent `utils.ts`; spec §4.3
interpolates `v1 + (v2 - v1) * alpha`. -/
def lerp (v1 v2 alpha : ℚ) : ℚ := v1 + (v2 - v1) * alpha

/-- Modelled from the spec: `clamp(x, low, high)` from the absent
`utils.ts`; spec §4.3 clamps the result to `[low, high]`. -/
def clamp (x low high : ℚ) : ℚ := min (max x low) high

/-- Stable insertion of a datum into a time-sorted list: the new datum
goes after every strictly earlier datum and before equal-time data that
occur later in the original input. -/
def insertByTime (x : TrackDatum) : List TrackDatum → List TrackDatum
  | [] => [x]
  | y :: ys => if y.time < x.time then y :: insertByTime x ys else x :: y :: ys

/-- `[...def.data].sort((a, b) => a.time - b.time)` from `core.ts` line 51:
`Array.prototype.sort` is stable, so the call is a stable sort ascending
by `time`; equal-time entries keep their input order.  A stable sort by a
total key is unique, so this insertion sort computes the same list. -/
def sortByTime : List TrackDatum → List TrackDatum
  | [] => []
  | x :: xs => insertByTime x (sortByTime xs)

/-- The `Core` class state (`core.ts`): the name-keyed track map as an
insertion-ordered association list, the ordered id list, the clock pair,
the timeline duration, and the track-id counter (`trackIdCounter`). -/
structure Core where
  tracksByName : List (String × TrackRuntime)
  orderedTrackIds : List String
  currentTime : ℚ
  lastTime : ℚ
  duration : ℚ
  counter : Nat
deriving DecidableEq, Repr

/-- `new Core(duration?)`: clock at 0, empty store. -/
def Core.init (duration : Option ℚ) : Core :=
  ⟨[], [], 0, 0, duration.getD DEFAULT_TIMELINE_DURATION, 0⟩

/-- `Map.has(name)` on the association list. -/
def mapHas (m : List (String × TrackRuntime)) (k : String) : Bool :=
  m.any fun p => p.1 == k

/-- `Map.get(name)` on the association list. -/
def mapGet (m : List (String × TrackRuntime)) (k : String) : Option TrackRuntime :=
  (m.find? fun p => p.1 == k).map Prod.snd

/-- `generateTrackId()` from `core.ts`: the string for counter value `n`. -/
def mkTrackId (n : Nat) : String := "track_" ++ toString n

/-- `Core.addTrack(def)` from `core.ts` lines 44-88: returns false on a
name collision; otherwise stably sorts the data by time, splits into the
parallel `times`/`elements` arrays, fills default bounds, appends the
runtime to the map and its fresh id to the ordered list, and extends the
duration when the new maximum time plus one exceeds it. -/
def Core.addTrack (s : Core) (d : TrackDef) : Core × Bool :=
  if mapHas s.tracksByName d.name then (s, false)
  else
    let sortedData := sortByTime d.data
    let times := sortedData.map fun datum => datum.time
    let elements := sortedData.map fun datum => datum.element
    let low := d.low.getD DEFAULT_NUMBER_LOW
    let high := d.high.getD DEFAULT_NUMBER_HIGH
    let id := mkTrackId (s.counter + 1)
    let rt : TrackRuntime := ⟨id, d, times, elements, low, high⟩
    let duration' :=
      if 0 < times.length then
        let maxTime := times.getD (times.length - 1) 0
        if s.duration < maxTime + 1 then maxTime + 1 else s.duration
      else s.duration
    ({ s with
        tracksByName := s.tracksByName ++ [(d.name, rt)]
        orderedTrackIds := s.orderedTrackIds ++ [id]
        duration := duration'
        counter := s.counter + 1 }, true)

/-- `Core.evaluateNumberTrack(track, t)` from `core.ts` lines 120-148. -/
def Core.evaluateNumberTrack (track : TrackRuntime) (t : ℚ) : ℚ :=
  let n := track.times.length
  if n = 0 then track.low
  else
    let r := upperBound track.times t
    let value :=
      if r = 0 then (track.elements.getD 0 default).asNum
      else if n ≤ r then (track.elements.getD (r - 1) default).asNum
      else
        let t1 := track.times.getD (r - 1) 0
        let t2 := track.times.getD r 0
        let v1 := (track.elements.getD (r - 1) default).asNum
        let v2 := (track.elements.getD r default).asNum
        lerp v1 v2 ((t - t1) / (t2 - t1))
    clamp value track.low track.high

/-- `Core.evaluateEnumTrack(track, t)` from `core.ts` lines 154-166. -/
def Core.evaluateEnumTrack (track : TrackRuntime) (t : ℚ) : String :=
  if track.times.length = 0 then ""
  else
    let i := upperBound track.times t
    if i = 0 then (track.elements.getD 0 default).asStr
    else (track.elements.getD (i - 1) default).asStr

/-- `Core.fireFuncHits(track, fromTime, toTime)` from `core.ts` lines
172-184: no hits when not moving forward or when no `updateFunc` is
registered; otherwise one `updateFunc` invocation per element with index
in `[upperBound(times, fromTime), upperBound(times, toTime))`. -/
def fireFuncHits (track : TrackRuntime) (fromTime toTime : ℚ) : List Event :=
  if toTime ≤ fromTime then []
  else if track.def_.hasUpdateFunc = false then []
  else
    let start := upperBound track.times fromTime
    let stop := upperBound track.times toTime
    ((track.elements.drop start).take (stop - start)).map fun e =>
      Event.callFunc e.asFunc.funcName e.asFunc.args

/-- The callback invocations one track contributes to a scrub, per the
`switch (track.def.fieldType)` in `core.ts` lines 194-215; `lastTime` is
the pre-scrub value, read before it is reassigned. -/
def trackEvents (lastTime t : ℚ) (track : TrackRuntime) : List Event :=
  match track.def_.fieldType with
  | TrackType.number =>
      if track.def_.hasUpdateNumber then
        [Event.callNumber (Core.evaluateNumberTrack track t)]
      else []
  | TrackType.enum =>
      if track.def_.hasUpdateEnum then
        [Event.callEnum (Core.evaluateEnumTrack track t)]
      else []
  | TrackType.func => fireFuncHits track lastTime t

/-- `Core.scrubToTime(t)` from `core.ts` lines 190-219: sets
`currentTime`, dispatches per-track callbacks in map order (tagged here
with the map key), then sets `lastTime`.  Returns the new state and the
event trace. -/
def Core.scrubToTime (s : Core) (t : ℚ) : Core × List (String × Event) :=
  ({ s with currentTime := t, lastTime := t },
   (s.tracksByName.map fun p => (trackEvents s.lastTime t p.2).map fun e => (p.1, e)).flatten)

/-- `Core.jumpToTime(t)` from `core.ts` lines 224-228: sets both clocks
and invokes no callbacks. -/
def Core.jumpToTime (s : Core) (t : ℚ) : Core × List (String × Event) :=
  ({ s with currentTime := t, lastTime := t }, [])

theorem upperBound_le_length (l : List ℚ) (t : ℚ) : upperBound l t ≤ l.length := by
  induction l with
  | nil => simp [upperBound]
  | cons x xs ih =>
      simp only [upperBound, List.length_cons]
      split
      · exact Nat.zero_le _
      · exact Nat.succ_le_succ ih

theorem getD_le_of_lt_upperBound {l : List ℚ} {t : ℚ} {i : Nat}
    (h : i < upperBound l t) : l.getD i 0 ≤ t := by
  induction l generalizing i with
  | nil => simp [upperBound] at h
  | cons x xs ih =>
      rw [upperBound] at h
      split at h
      · exact absurd h (Nat.not_lt_zero i)
      · cases i with
        | zero => exact le_of_not_lt (by assumption)
        | succ i => exact ih (Nat.lt_of_succ_lt_succ h)

theorem lt_getD_upperBound {l : List ℚ} {t : ℚ}
    (h : upperBound l t < l.length) : t < l.getD (upperBound l t) 0 := by
  induction l with
  | nil => simp at h
  | cons x xs ih =>
      by_cases htx : t < x
      · simp [upperBound, htx, List.getD]
      · rw [upperBound, if_neg htx] at h ⊢
        simp only [List.length_cons] at h
        simpa [List.getD] using ih (Nat.lt_of_succ_lt_succ h)

theorem upperBound_le_of_lt_getD {l : List ℚ} {t : ℚ} {i : Nat}
    (h : t < l.getD i 0) : upperBound l t ≤ i := by
  by_contra hcon
  exact absurd (getD_le_of_lt_upperBound (Nat.lt_of_not_le hcon)) (not_le_of_lt h)

theorem lt_upperBound_of_getD_le {l : List ℚ} {t : ℚ}
    (hs : l.Pairwise (· ≤ ·)) {i : Nat} (hi : i < l.length)
    (h : l.getD i 0 ≤ t) : i < upperBound l t := by
  induction l generalizing i with
  | nil => simp at hi
  | cons x xs ih =>
      rcases List.pairwise_cons.1 hs with ⟨hx, hxs⟩
      rw [upperBound]
      split
      · rename_i htx
        exfalso
        cases i with
        | zero => exact absurd h (not_le_of_lt (by simpa [List.getD] using htx))
        | succ i =>
            have hmem : xs.getD i 0 ∈ xs := by
              rw [List.getD_eq_getElem xs 0 (by simpa using Nat.lt_of_succ_lt_succ hi)]
              exact List.getElem_mem _
            have : x ≤ xs.getD i 0 := hx _ hmem
            simp only [List.getD_cons_succ] at h
            exact absurd (le_trans this h) (not_le_of_lt htx)
      · cases i with
        | zero => exact Nat.succ_pos _
        | succ i =>
            have := ih hxs (by simpa using Nat.lt_of_succ_lt_succ hi)
              (by simpa [List.getD] using h)
            exact Nat.succ_lt_succ this

theorem upperBound_eq_length_of_all_le {l : List ℚ} {t : ℚ}
    (h : ∀ y ∈ l, y ≤ t) : upperBound l t = l.length := by
  induction l with
  | nil => simp [upperBound]
  | cons x xs ih =>
      rw [upperBound, if_neg (not_lt_of_le (h x (by simp)))]
      simp [ih fun y hy => h y (List.mem_cons_of_mem _ hy)]

theorem getD_mono_of_sorted {l : List ℚ} (hs : l.Pairwise (· ≤ ·))
    {i j : Nat} (hij : i ≤ j) (hj : j < l.length) : l.getD i 0 ≤ l.getD j 0 := by
  rcases Nat.eq_or_lt_of_le hij with heq | hlt
  · rw [heq]
  · have hi : i < l.length := Nat.lt_trans hlt hj
    rw [List.getD_eq_getElem l 0 hi, List.getD_eq_getElem l 0 hj]
    exact (List.pairwise_iff_get.1 hs) ⟨i, hi⟩ ⟨j, hj⟩ hlt

theorem upperBound_eq_zero_of_forall_lt {l : List ℚ} {t : ℚ}
    (h : ∀ y ∈ l, t < y) : upperBound l t = 0 := by
  cases l with
  | nil => rfl
  | cons x xs => simp [upperBound, h x (by simp)]

theorem insertByTime_perm (x : TrackDatum) (l : List TrackDatum) :
    (insertByTime x l).Perm (x :: l) := by
  induction l with
  | nil => exact List.Perm.refl _
  | cons y ys ih =>
      rw [insertByTime]
      split
      · exact ((ih.cons y).trans (List.Perm.swap x y ys))
      · exact List.Perm.refl _

theorem sortByTime_perm (l : List TrackDatum) : (sortByTime l).Perm l := by
  induction l with
  | nil => exact List.Perm.refl _
  | cons x xs ih => exact (insertByTime_perm x (sortByTime xs)).trans (ih.cons x)

theorem insertByTime_pairwise {x : TrackDatum} {l : List TrackDatum}
    (hs : l.Pairwise fun a b => a.time ≤ b.time) :
    (insertByTime x l).Pairwise fun a b => a.time ≤ b.time := by
  induction l with
  | nil => simp [insertByTime]
  | cons y ys ih =>
      rcases List.pairwise_cons.1 hs with ⟨hy, hys⟩
      rw [insertByTime]
      split
      · rename_i hyx
        refine List.pairwise_cons.2 ⟨?_, ih hys⟩
        intro z hz
        rcases List.mem_cons.1 ((insertByTime_perm x ys).mem_iff.1 hz) with hzx | hzys
        · exact hzx ▸ le_of_lt hyx
        · exact hy z hzys
      · rename_i hyx
        refine List.pairwise_cons.2 ⟨?_, hs⟩
        intro z hz
        rcases List.mem_cons.1 hz with hzy | hzys
        · exact hzy ▸ le_of_not_lt hyx
        · exact le_trans (le_of_not_lt hyx) (hy z hzys)

theorem sortByTime_pairwise (l : List TrackDatum) :
    (sortByTime l).Pairwise fun a b => a.time ≤ b.time := by
  induction l with
  | nil => simp [sortByTime]
  | cons x xs ih => exact insertByTime_pairwise ih

theorem filter_time_insertByTime (x : TrackDatum) (l : List TrackDatum) (τ : ℚ) :
    (insertByTime x l).filter (fun d => decide (d.time = τ)) =
      if x.time = τ then x :: l.filter (fun d => decide (d.time = τ))
      else l.filter (fun d => decide (d.time = τ)) := by
  induction l with
  | nil =>
      by_cases hxτ : x.time = τ <;> simp [insertByTime, List.filter_cons, hxτ]
  | cons y ys ih =>
      rw [insertByTime]
      split
      · rename_i hyx
        by_cases hxτ : x.time = τ
        · have hyτ : ¬ y.time = τ := by
            intro hyτ
            exact absurd (hxτ ▸ hyτ ▸ hyx) (lt_irrefl _)
          simp [List.filter_cons, hyτ, hxτ, ih]
        · simp only [List.filter_cons, ih, if_neg hxτ]
      · simp [List.filter_cons]

theorem sortByTime_filter_time (l : List TrackDatum) (τ : ℚ) :
    (sortByTime l).filter (fun d => decide (d.time = τ)) =
      l.filter (fun d => decide (d.time = τ)) := by
  induction l with
  | nil => rfl
  | cons x xs ih =>
      rw [sortByTime, filter_time_insertByTime, ih]
      by_cases hxτ : x.time = τ <;> simp [List.filter_cons, hxτ]

theorem slice_eq_filter {α : Type} (l : List (ℚ × α)) (a b : ℚ) (hab : a < b)
    (hs : (l.map Prod.fst).Pairwise (· ≤ ·)) :
    (l.drop (upperBound (l.map Prod.fst) a)).take
        (upperBound (l.map Prod.fst) b - upperBound (l.map Prod.fst) a) =
      l.filter fun p => decide (a < p.1) && decide (p.1 ≤ b) := by
  induction l with
  | nil => simp [upperBound]
  | cons p rest ih =>
      rw [List.map_cons] at hs
      rcases List.pairwise_cons.1 hs with ⟨hp, hrest⟩
      by_cases hpa : a < p.1
      · by_cases hpb : p.1 ≤ b
        · have hub_a : upperBound ((p :: rest).map Prod.fst) a = 0 := by
            simp [upperBound, hpa]
          have hub_b : upperBound ((p :: rest).map Prod.fst) b =
              upperBound (rest.map Prod.fst) b + 1 := by
            simp [upperBound, not_lt_of_le hpb]
          have hz : upperBound (rest.map Prod.fst) a = 0 :=
            upperBound_eq_zero_of_forall_lt fun y hy => lt_of_lt_of_le hpa (hp y hy)
          rw [hub_a, hub_b]
          simp only [List.drop_zero, Nat.sub_zero, List.take_succ_cons,
            List.filter_cons, decide_eq_true hpa, decide_eq_true hpb,
            Bool.and_self]
          have := ih hrest
          rw [hz] at this
          simpa using this
        · have hbp : b < p.1 := lt_of_not_le hpb
          have hub_a : upperBound ((p :: rest).map Prod.fst) a = 0 := by
            simp [upperBound, hpa]
          have hub_b : upperBound ((p :: rest).map Prod.fst) b = 0 := by
            simp [upperBound, hbp]
          rw [hub_a, hub_b]
          simp only [Nat.sub_zero, List.take_zero]
          have hnil : (p :: rest).filter (fun q => decide (a < q.1) && decide (q.1 ≤ b)) = [] := by
            rw [List.filter_eq_nil_iff]
            intro q hq
            rcases List.mem_cons.1 hq with hqp | hqr
            · simp [hqp, not_le_of_lt hbp]
            · have : p.1 ≤ q.1 := hp q.1 (List.mem_map_of_mem Prod.fst hqr)
              simp [not_le_of_lt (lt_of_lt_of_le hbp this)]
          exact hnil.symm
      · have hpa' : p.1 ≤ a := le_of_not_lt hpa
        have hub_a : upperBound ((p :: rest).map Prod.fst) a =
            upperBound (rest.map Prod.fst) a + 1 := by
          simp [upperBound, hpa]
        have hub_b : upperBound ((p :: rest).map Prod.fst) b =
            upperBound (rest.map Prod.fst) b + 1 := by
          simp [upperBound, not_lt_of_le (le_of_lt (lt_of_le_of_lt hpa' hab))]
        rw [hub_a, hub_b]
        have hcond : (decide (a < p.1) && decide (p.1 ≤ b)) = false := by
          simp [hpa]
        rw [List.drop_succ_cons, Nat.succ_sub_succ, List.filter_cons, hcond]
        simp only [Bool.false_eq_true, if_false]
        exact ih hrest

theorem fireFuncHits_eq_filter (track : TrackRuntime) (fromT toT : ℚ)
    (hupd : track.def_.hasUpdateFunc = true)
    (hs : track.times.Pairwise (· ≤ ·))
    (hlen : track.times.length = track.elements.length) :
    fireFuncHits track fromT toT =
      if fromT < toT then
        ((track.times.zip track.elements).filter
            (fun p => decide (fromT < p.1) && decide (p.1 ≤ toT))).map
          (fun p => Event.callFunc p.2.asFunc.funcName p.2.asFunc.args)
      else [] := by
  by_cases h : toT ≤ fromT
  · rw [fireFuncHits, if_pos h, if_neg (not_lt_of_le h)]
  · have hlt : fromT < toT := lt_of_not_le h
    rw [fireFuncHits, if_neg h, if_neg (by simp [hupd]), if_pos hlt]
    have hfst : (track.times.zip track.elements).map Prod.fst = track.times :=
      List.map_fst_zip _ _ (le_of_eq hlen)
    have hsnd : (track.times.zip track.elements).map Prod.snd = track.elements :=
      List.map_snd_zip _ _ (le_of_eq hlen.symm)
    have hslice := slice_eq_filter (track.times.zip track.elements) fromT toT hlt
      (by rw [hfst]; exact hs)
    rw [hfst] at hslice
    have hslices : (track.elements.drop (upperBound track.times fromT)).take
        (upperBound track.times toT - upperBound track.times fromT) =
        (((track.times.zip track.elements).drop (upperBound track.times fromT)).take
          (upperBound track.times toT - upperBound track.times fromT)).map Prod.snd := by
      rw [List.map_take, List.map_drop, hsnd]
    show ((track.elements.drop (upperBound track.times fromT)).take
        (upperBound track.times toT - upperBound track.times fromT)).map
        (fun e => Event.callFunc e.asFunc.funcName e.asFunc.args) =
      ((track.times.zip track.elements).filter
          (fun p => decide (fromT < p.1) && decide (p.1 ≤ toT))).map
        (fun p => Event.callFunc p.2.asFunc.funcName p.2.asFunc.args)
    rw [hslices, hslice, List.map_map]
    rfl

theorem tagged_flatten_filter_nil (m : List (String × TrackRuntime))
    (f : TrackRuntime → List Event) (name : String)
    (hna : name ∉ m.map Prod.fst) :
    ((m.map fun p => (f p.2).map fun e => (p.1, e)).flatten.filter
      fun q => q.1 == name) = [] := by
  induction m with
  | nil => rfl
  | cons p rest ih =>
      have hne : p.1 ≠ name := fun heq => hna (by simp [heq])
      have hrest : name ∉ rest.map Prod.fst := fun hmem => hna (by simp [hmem])
      simp only [List.map_cons, List.flatten_cons, List.filter_append, ih hrest,
        List.append_nil]
      rw [List.filter_eq_nil_iff]
      intro q hq
      rcases List.mem_map.1 hq with ⟨e, _, rfl⟩
      simpa using hne

theorem tagged_flatten_filter (m : List (String × TrackRuntime))
    (f : TrackRuntime → List Event) (name : String) (tr : TrackRuntime)
    (hnd : (m.map Prod.fst).Nodup) (hmem : (name, tr) ∈ m) :
    (((m.map fun p => (f p.2).map fun e => (p.1, e)).flatten.filter
      fun q => q.1 == name).map Prod.snd) = f tr := by
  induction m with
  | nil => simp at hmem
  | cons p rest ih =>
      rw [List.map_cons] at hnd
      rcases List.nodup_cons.1 hnd with ⟨hp, hrest⟩
      rcases List.mem_cons.1 hmem with hhead | htail
      · subst hhead
        have hnotin : name ∉ rest.map Prod.fst := by simpa using hp
        simp only [List.map_cons, List.flatten_cons, List.filter_append,
          tagged_flatten_filter_nil rest f name hnotin, List.append_nil]
        have hall : ((f tr).map fun e => (name, e)).filter (fun q => q.1 == name) =
            (f tr).map fun e => (name, e) := by
          rw [List.filter_eq_self]
          intro q hq
          rcases List.mem_map.1 hq with ⟨e, _, rfl⟩
          simp
        rw [hall, List.map_map]
        simp
      · have hname_in : name ∈ rest.map Prod.fst :=
          List.mem_map.2 ⟨(name, tr), htail, rfl⟩
        have hne : p.1 ≠ name := fun hk => hp (hk ▸ hname_in)
        simp only [List.map_cons, List.flatten_cons, List.filter_append]
        have hnilp : ((f p.2).map fun e => (p.1, e)).filter (fun q => q.1 == name) = [] := by
          rw [List.filter_eq_nil_iff]
          intro q hq
          rcases List.mem_map.1 hq with ⟨e, _, rfl⟩
          simpa using hne
        rw [hnilp, List.nil_append]
        exact ih hrest htail

/-- A sample func element used by concrete witnesses. -/
def sampleFuncElem : Element := Element.func ⟨"boom", [JsVal.num 3, JsVal.str "x"]⟩

/-- A sample func track definition with a single hit at time 1. -/
def sampleFuncDef : TrackDef :=
  ⟨"f", TrackType.func, [⟨1, sampleFuncElem⟩], false, false, true, none, none⟩

/-- The runtime for `sampleFuncDef` as `addTrack` would build it. -/
def sampleFuncTrack : TrackRuntime :=
  ⟨"track_1", sampleFuncDef, [1], [sampleFuncElem], 0, 1⟩

/-- A one-track core holding `sampleFuncTrack`, clock at 0. -/
def sampleCore : Core := ⟨[("f", sampleFuncTrack)], ["track_1"], 0, 0, 100, 1⟩

/-- A sample number track definition with points (0, 0) and (2, 1). -/
def sampleNumDef : TrackDef :=
  ⟨"n", TrackType.number, [⟨0, Element.num 0⟩, ⟨2, Element.num 1⟩],
    true, false, false, none, none⟩

/-- The runtime for `sampleNumDef`. -/
def sampleNumTrack : TrackRuntime :=
  ⟨"track_1", sampleNumDef, [0, 2], [Element.num 0, Element.num 1], 0, 1⟩

/-- A one-track core holding `sampleNumTrack`, clock at 5. -/
def sampleNumCore : Core := ⟨[("n", sampleNumTrack)], ["track_1"], 5, 5, 100, 1⟩

/-- C1: for a func track with a registered `updateFunc`, `scrubToTime t`
invokes the callback exactly once per element with time in
`(lastTime, t]`, in ascending time order, with the recorded name and
arguments, when `t > lastTime`; invokes nothing when `t ≤ lastTime`; and
always sets `lastTime` to `t`. -/
theorem scrub_fires_func_hits_exactly_once
    (s : Core) (name : String) (tr : TrackRuntime) (t : ℚ)
    (hnd : (s.tracksByName.map Prod.fst).Nodup)
    (hmem : (name, tr) ∈ s.tracksByName)
    (hft : tr.def_.fieldType = TrackType.func)
    (hupd : tr.def_.hasUpdateFunc = true)
    (hsort : tr.times.Pairwise (· ≤ ·))
    (hlen : tr.times.length = tr.elements.length) :
    (((s.scrubToTime t).2.filter fun q => q.1 == name).map Prod.snd) =
      (if s.lastTime < t then
        ((tr.times.zip tr.elements).filter
            (fun p => decide (s.lastTime < p.1) && decide (p.1 ≤ t))).map
          (fun p => Event.callFunc p.2.asFunc.funcName p.2.asFunc.args)
      else []) ∧
    (s.scrubToTime t).1.lastTime = t := by
  constructor
  · have h1 : (((s.scrubToTime t).2.filter fun q => q.1 == name).map Prod.snd) =
        trackEvents s.lastTime t tr :=
      tagged_flatten_filter s.tracksByName (trackEvents s.lastTime t) name tr hnd hmem
    rw [h1]
    have h2 : trackEvents s.lastTime t tr = fireFuncHits tr s.lastTime t := by
      simp [trackEvents, hft]
    rw [h2]
    exact fireFuncHits_eq_filter tr s.lastTime t hupd hsort hlen
  · rfl

theorem scrub_fires_func_hits_exactly_once_witness :
    (sampleCore.tracksByName.map Prod.fst).Nodup ∧
    ("f", sampleFuncTrack) ∈ sampleCore.tracksByName ∧
    sampleFuncTrack.def_.fieldType = TrackType.func ∧
    sampleFuncTrack.def_.hasUpdateFunc = true ∧
    sampleFuncTrack.times.Pairwise (· ≤ ·) ∧
    sampleFuncTrack.times.length = sampleFuncTrack.elements.length ∧
    ((((sampleCore.scrubToTime 2).2.filter fun q => q.1 == "f").map Prod.snd) =
      (if sampleCore.lastTime < 2 then
        ((sampleFuncTrack.times.zip sampleFuncTrack.elements).filter
            (fun p => decide (sampleCore.lastTime < p.1) && decide (p.1 ≤ 2))).map
          (fun p => Event.callFunc p.2.asFunc.funcName p.2.asFunc.args)
      else [])) ∧
    (sampleCore.scrubToTime 2).1.lastTime = 2 :=
  ⟨by decide, by decide, rfl, rfl, by decide, rfl,
    (scrub_fires_func_hits_exactly_once sampleCore "f" sampleFuncTrack 2
      (by decide) (by decide) rfl rfl (by decide) rfl).1,
    (scrub_fires_func_hits_exactly_once sampleCore "f" sampleFuncTrack 2
      (by decide) (by decide) rfl rfl (by decide) rfl).2⟩

/-- C2: `jumpToTime t` sets both clocks to `t`, invokes no callbacks,
leaves every track unchanged, and a subsequent forward scrub to
`t' > t` fires, for a func track, exactly the hits with time in
`(t, t']`. -/
theorem jump_invokes_nothing_and_rebases_hits
    (s : Core) (name : String) (tr : TrackRuntime) (t t' : ℚ)
    (hnd : (s.tracksByName.map Prod.fst).Nodup)
    (hmem : (name, tr) ∈ s.tracksByName)
    (hft : tr.def_.fieldType = TrackType.func)
    (hupd : tr.def_.hasUpdateFunc = true)
    (hsort : tr.times.Pairwise (· ≤ ·))
    (hlen : tr.times.length = tr.elements.length)
    (htt' : t < t') :
    (s.jumpToTime t).1.currentTime = t ∧
    (s.jumpToTime t).1.lastTime = t ∧
    (s.jumpToTime t).2 = [] ∧
    (s.jumpToTime t).1.tracksByName = s.tracksByName ∧
    ((((s.jumpToTime t).1.scrubToTime t').2.filter fun q => q.1 == name).map Prod.snd) =
      ((tr.times.zip tr.elements).filter
          (fun p => decide (t < p.1) && decide (p.1 ≤ t'))).map
        (fun p => Event.callFunc p.2.asFunc.funcName p.2.asFunc.args) := by
  refine ⟨rfl, rfl, rfl, rfl, ?_⟩
  have h1 : ((((s.jumpToTime t).1.scrubToTime t').2.filter
      fun q => q.1 == name).map Prod.snd) = trackEvents t t' tr :=
    tagged_flatten_filter (s.jumpToTime t).1.tracksByName (trackEvents t t') name tr hnd hmem
  rw [h1]
  have h2 : trackEvents t t' tr = fireFuncHits tr t t' := by
    simp [trackEvents, hft]
  rw [h2, fireFuncHits_eq_filter tr t t' hupd hsort hlen, if_pos htt']

theorem jump_invokes_nothing_and_rebases_hits_witness :
    (sampleCore.tracksByName.map Prod.fst).Nodup ∧
    ("f", sampleFuncTrack) ∈ sampleCore.tracksByName ∧
    ((5 : ℚ) < 6) ∧
    (sampleCore.jumpToTime 5).1.currentTime = 5 ∧
    (sampleCore.jumpToTime 5).1.lastTime = 5 ∧
    (sampleCore.jumpToTime 5).2 = [] ∧
    (sampleCore.jumpToTime 5).1.tracksByName = sampleCore.tracksByName ∧
    ((((sampleCore.jumpToTime 5).1.scrubToTime 6).2.filter
        fun q => q.1 == "f").map Prod.snd) =
      ((sampleFuncTrack.times.zip sampleFuncTrack.elements).filter
          (fun p => decide ((5 : ℚ) < p.1) && decide (p.1 ≤ 6))).map
        (fun p => Event.callFunc p.2.asFunc.funcName p.2.asFunc.args) ∧
    ((sampleFuncTrack.times.zip sampleFuncTrack.elements).filter
        (fun p => decide ((5 : ℚ) < p.1) && decide (p.1 ≤ 6))).map
      (fun p => Event.callFunc p.2.asFunc.funcName p.2.asFunc.args) = [] := by
  have h := jump_invokes_nothing_and_rebases_hits sampleCore "f" sampleFuncTrack 5 6
    (by decide) (by decide) rfl rfl (by decide) rfl (by decide)
  exact ⟨by decide, by decide, by decide, h.1, h.2.1, h.2.2.1, h.2.2.2.1, h.2.2.2.2,
    by decide⟩

/-- C4: every `scrubToTime t` sets `currentTime` and `lastTime` to `t`
and unconditionally invokes the registered `updateNumber`/`updateEnum`
callback of every number/enum track with the evaluated value at `t` —
with no condition relating `t` to the previous `lastTime`. -/
theorem scrub_always_fires_state_callbacks
    (s : Core) (name : String) (tr : TrackRuntime) (t : ℚ)
    (hnd : (s.tracksByName.map Prod.fst).Nodup)
    (hmem : (name, tr) ∈ s.tracksByName) :
    (s.scrubToTime t).1.currentTime = t ∧
    (s.scrubToTime t).1.lastTime = t ∧
    (tr.def_.fieldType = TrackType.number → tr.def_.hasUpdateNumber = true →
      (((s.scrubToTime t).2.filter fun q => q.1 == name).map Prod.snd) =
        [Event.callNumber (Core.evaluateNumberTrack tr t)]) ∧
    (tr.def_.fieldType = TrackType.enum → tr.def_.hasUpdateEnum = true →
      (((s.scrubToTime t).2.filter fun q => q.1 == name).map Prod.snd) =
        [Event.callEnum (Core.evaluateEnumTrack tr t)]) := by
  have h1 : (((s.scrubToTime t).2.filter fun q => q.1 == name).map Prod.snd) =
      trackEvents s.lastTime t tr :=
    tagged_flatten_filter s.tracksByName (trackEvents s.lastTime t) name tr hnd hmem
  refine ⟨rfl, rfl, ?_, ?_⟩
  · intro hft hupd
    rw [h1]
    simp [trackEvents, hft, hupd]
  · intro hft hupd
    rw [h1]
    simp [trackEvents, hft, hupd]

theorem scrub_always_fires_state_callbacks_witness :
    (sampleNumCore.tracksByName.map Prod.fst).Nodup ∧
    ("n", sampleNumTrack) ∈ sampleNumCore.tracksByName ∧
    sampleNumCore.lastTime = 5 ∧
    (sampleNumCore.scrubToTime 3).1.currentTime = 3 ∧
    (sampleNumCore.scrubToTime 3).1.lastTime = 3 ∧
    (((sampleNumCore.scrubToTime 3).2.filter fun q => q.1 == "n").map Prod.snd) =
      [Event.callNumber (Core.evaluateNumberTrack sampleNumTrack 3)] := by
  have h := scrub_always_fires_state_callbacks sampleNumCore "n" sampleNumTrack 3
    (by decide) (by decide)
  exact ⟨by decide, by decide, rfl, h.1, h.2.1, h.2.2.1 rfl rfl⟩

theorem clamp_bounds {x low high : ℚ} (h : low ≤ high) :
    low ≤ clamp x low high ∧ clamp x low high ≤ high :=
  ⟨le_min (le_max_right _ _) h, min_le_right _ _⟩

theorem evalNum_exists_clamp (tr : TrackRuntime) (t : ℚ)
    (hn : tr.times.length ≠ 0) :
    ∃ x, Core.evaluateNumberTrack tr t = clamp x tr.low tr.high := by
  simp only [Core.evaluateNumberTrack]
  rw [if_neg hn]
  exact ⟨_, rfl⟩

/-- C3: number evaluation returns `low` on an empty track, the clamped
first value before the first time, the clamped last value at or after
the last time, and otherwise the clamped linear interpolation between
the surrounding points; the result always lies in `[low, high]`. -/
theorem evaluateNumberTrack_piecewise
    (tr : TrackRuntime) (t : ℚ)
    (hsort : tr.times.Pairwise (· ≤ ·))
    (_hlen : tr.times.length = tr.elements.length)
    (hlh : tr.low ≤ tr.high) :
    (tr.times = [] → Core.evaluateNumberTrack tr t = tr.low) ∧
    (tr.times ≠ [] → t < tr.times.getD 0 0 →
      Core.evaluateNumberTrack tr t =
        clamp ((tr.elements.getD 0 default).asNum) tr.low tr.high) ∧
    (tr.times ≠ [] → tr.times.getD (tr.times.length - 1) 0 ≤ t →
      Core.evaluateNumberTrack tr t =
        clamp ((tr.elements.getD (tr.times.length - 1) default).asNum) tr.low tr.high) ∧
    (∀ i, i + 1 < tr.times.length →
      tr.times.getD i 0 ≤ t → t < tr.times.getD (i + 1) 0 →
      Core.evaluateNumberTrack tr t =
        clamp (lerp ((tr.elements.getD i default).asNum)
            ((tr.elements.getD (i + 1) default).asNum)
            ((t - tr.times.getD i 0) / (tr.times.getD (i + 1) 0 - tr.times.getD i 0)))
          tr.low tr.high) ∧
    tr.low ≤ Core.evaluateNumberTrack tr t ∧
    Core.evaluateNumberTrack tr t ≤ tr.high := by
  refine ⟨?_, ?_, ?_, ?_, ?_, ?_⟩
  · intro hnil
    simp [Core.evaluateNumberTrack, hnil]
  · intro hne hlt
    have hn0 : tr.times.length ≠ 0 := fun h => hne (List.length_eq_zero.1 h)
    have hub : upperBound tr.times t = 0 := Nat.le_zero.1 (upperBound_le_of_lt_getD hlt)
    simp only [Core.evaluateNumberTrack]
    rw [if_neg hn0, hub]
    simp
  · intro hne hlast
    have hn0 : tr.times.length ≠ 0 := fun h => hne (List.length_eq_zero.1 h)
    have hpos : 0 < tr.times.length := Nat.pos_of_ne_zero hn0
    have hall : ∀ y ∈ tr.times, y ≤ t := by
      intro y hy
      rcases List.mem_iff_get.1 hy with ⟨⟨i, hi⟩, rfl⟩
      have h1 : tr.times.get ⟨i, hi⟩ = tr.times.getD i 0 :=
        (List.getD_eq_getElem tr.times 0 hi).symm
      rw [h1]
      exact le_trans
        (getD_mono_of_sorted hsort (Nat.le_sub_one_of_lt hi)
          (Nat.sub_lt hpos Nat.one_pos)) hlast
    have hub : upperBound tr.times t = tr.times.length :=
      upperBound_eq_length_of_all_le hall
    simp only [Core.evaluateNumberTrack]
    rw [if_neg hn0, hub, if_neg hn0, if_pos (le_refl _)]
  · intro i hi1 hle hgt
    have hn0 : tr.times.length ≠ 0 := Nat.pos_iff_ne_zero.1 (Nat.lt_of_le_of_lt (Nat.zero_le _) hi1)
    have hub_ge : i < upperBound tr.times t :=
      lt_upperBound_of_getD_le hsort (Nat.lt_of_succ_lt hi1) hle
    have hub_le : upperBound tr.times t ≤ i + 1 := upperBound_le_of_lt_getD hgt
    have hub : upperBound tr.times t = i + 1 := le_antisymm hub_le hub_ge
    simp only [Core.evaluateNumberTrack]
    rw [if_neg hn0, hub, if_neg (Nat.succ_ne_zero i), if_neg (Nat.not_le_of_lt hi1)]
    simp
  · rcases Nat.eq_zero_or_pos tr.times.length with hz | hpos
    · simp [Core.evaluateNumberTrack, hz]
    · rcases evalNum_exists_clamp tr t (Nat.pos_iff_ne_zero.1 hpos) with ⟨x, hx⟩
      rw [hx]
      exact (clamp_bounds hlh).1
  · rcases Nat.eq_zero_or_pos tr.times.length with hz | hpos
    · simp [Core.evaluateNumberTrack, hz, hlh]
    · rcases evalNum_exists_clamp tr t (Nat.pos_iff_ne_zero.1 hpos) with ⟨x, hx⟩
      rw [hx]
      exact (clamp_bounds hlh).2

theorem evaluateNumberTrack_piecewise_witness :
    sampleNumTrack.times.Pairwise (· ≤ ·) ∧
    sampleNumTrack.times.length = sampleNumTrack.elements.length ∧
    sampleNumTrack.low ≤ sampleNumTrack.high ∧
    (0 : ℕ) + 1 < sampleNumTrack.times.length ∧
    sampleNumTrack.times.getD 0 0 ≤ 1 ∧ (1 : ℚ) < sampleNumTrack.times.getD 1 0 ∧
    Core.evaluateNumberTrack sampleNumTrack 1 =
      clamp (lerp ((sampleNumTrack.elements.getD 0 default).asNum)
          ((sampleNumTrack.elements.getD 1 default).asNum)
          ((1 - sampleNumTrack.times.getD 0 0) /
            (sampleNumTrack.times.getD 1 0 - sampleNumTrack.times.getD 0 0)))
        sampleNumTrack.low sampleNumTrack.high ∧
    sampleNumTrack.low ≤ Core.evaluateNumberTrack sampleNumTrack 1 ∧
    Core.evaluateNumberTrack sampleNumTrack 1 ≤ sampleNumTrack.high := by
  have h := evaluateNumberTrack_piecewise sampleNumTrack 1
    (by decide) rfl (by decide)
  exact ⟨by decide, rfl, by decide, by decide, by decide, by decide,
    h.2.2.2.1 0 (by decide) (by decide) (by decide), h.2.2.2.2.1, h.2.2.2.2.2⟩

/-- A sample enum track definition: "idle" at time 0, "walking" at 3. -/
def sampleEnumDef : TrackDef :=
  ⟨"e", TrackType.enum, [⟨0, Element.str "idle"⟩, ⟨3, Element.str "walking"⟩],
    false, true, false, none, none⟩

/-- The runtime for `sampleEnumDef`. -/
def sampleEnumTrack : TrackRuntime :=
  ⟨"track_1", sampleEnumDef, [0, 3], [Element.str "idle", Element.str "walking"], 0, 1⟩

/-- C5: enum evaluation is a step function: empty string on an empty
track, the first element before the first time, and otherwise the
element at the last index whose time is `≤ t`. -/
theorem evaluateEnumTrack_step
    (tr : TrackRuntime) (t : ℚ)
    (hsort : tr.times.Pairwise (· ≤ ·)) :
    (tr.times = [] → Core.evaluateEnumTrack tr t = "") ∧
    (tr.times ≠ [] → t < tr.times.getD 0 0 →
      Core.evaluateEnumTrack tr t = (tr.elements.getD 0 default).asStr) ∧
    (∀ i, i < tr.times.length → tr.times.getD i 0 ≤ t →
      (i = tr.times.length - 1 ∨ t < tr.times.getD (i + 1) 0) →
      Core.evaluateEnumTrack tr t = (tr.elements.getD i default).asStr) := by
  refine ⟨?_, ?_, ?_⟩
  · intro hnil
    simp [Core.evaluateEnumTrack, hnil]
  · intro hne hlt
    have hn0 : tr.times.length ≠ 0 := fun h => hne (List.length_eq_zero.1 h)
    have hub : upperBound tr.times t = 0 := Nat.le_zero.1 (upperBound_le_of_lt_getD hlt)
    simp only [Core.evaluateEnumTrack]
    rw [if_neg hn0, hub]
    simp
  · intro i hi hle hor
    have hn0 : tr.times.length ≠ 0 := Nat.pos_iff_ne_zero.1 (Nat.lt_of_le_of_lt (Nat.zero_le _) hi)
    have hub_ge : i < upperBound tr.times t := lt_upperBound_of_getD_le hsort hi hle
    have hub_le : upperBound tr.times t ≤ i + 1 := by
      rcases hor with hlast | hnext
      · have := upperBound_le_length tr.times t
        omega
      · exact upperBound_le_of_lt_getD hnext
    have hub : upperBound tr.times t = i + 1 := le_antisymm hub_le hub_ge
    simp only [Core.evaluateEnumTrack]
    rw [if_neg hn0, hub, if_neg (Nat.succ_ne_zero i)]
    simp

theorem evaluateEnumTrack_step_witness :
    sampleEnumTrack.times.Pairwise (· ≤ ·) ∧
    (0 : ℕ) < sampleEnumTrack.times.length ∧
    sampleEnumTrack.times.getD 0 0 ≤ 1 ∧
    ((0 : ℕ) = sampleEnumTrack.times.length - 1 ∨
      (1 : ℚ) < sampleEnumTrack.times.getD 1 0) ∧
    Core.evaluateEnumTrack sampleEnumTrack 1 = (sampleEnumTrack.elements.getD 0 default).asStr ∧
    (sampleEnumTrack.elements.getD 0 default).asStr = "idle" ∧
    (1 : ℕ) < sampleEnumTrack.times.length ∧
    sampleEnumTrack.times.getD 1 0 ≤ 4 ∧
    Core.evaluateEnumTrack sampleEnumTrack 4 = (sampleEnumTrack.elements.getD 1 default).asStr ∧
    (sampleEnumTrack.elements.getD 1 default).asStr = "walking" := by
  have h1 := evaluateEnumTrack_step sampleEnumTrack 1 (by decide)
  have h4 := evaluateEnumTrack_step sampleEnumTrack 4 (by decide)
  exact ⟨by decide, by decide, by decide, Or.inr (by decide),
    h1.2.2 0 (by decide) (by decide) (Or.inr (by decide)), rfl,
    by decide, by decide,
    h4.2.2 1 (by decide) (by decide) (Or.inl rfl), rfl⟩

/-- A sample number track with two elements at the duplicate time 1. -/
def sampleDupDef : TrackDef :=
  ⟨"d", TrackType.number,
    [⟨0, Element.num 0⟩, ⟨1, Element.num 3⟩, ⟨1, Element.num 7⟩, ⟨2, Element.num 9⟩],
    true, false, false, some 0, some 10⟩

/-- The runtime for `sampleDupDef`. -/
def sampleDupTrack : TrackRuntime :=
  ⟨"track_1", sampleDupDef, [0, 1, 1, 2],
    [Element.num 0, Element.num 3, Element.num 7, Element.num 9], 0, 10⟩

/-- C6: at an exact duplicate time both evaluators deterministically use
the last equal-time element: index `upperBound(times, t) - 1` carries
time `t`, every later index carries a different time, number evaluation
returns that element's value clamped, and enum evaluation returns that
element itself. -/
theorem eval_at_duplicate_time_prefers_last
    (tr : TrackRuntime) (t : ℚ)
    (hsort : tr.times.Pairwise (· ≤ ·))
    (_hlen : tr.times.length = tr.elements.length)
    (hdup : ∃ i j, i < j ∧ j < tr.times.length ∧
      tr.times.getD i 0 = t ∧ tr.times.getD j 0 = t) :
    tr.times.getD (upperBound tr.times t - 1) 0 = t ∧
    (∀ m, upperBound tr.times t - 1 < m → m < tr.times.length →
      tr.times.getD m 0 ≠ t) ∧
    Core.evaluateNumberTrack tr t =
      clamp ((tr.elements.getD (upperBound tr.times t - 1) default).asNum)
        tr.low tr.high ∧
    Core.evaluateEnumTrack tr t =
      (tr.elements.getD (upperBound tr.times t - 1) default).asStr := by
  rcases hdup with ⟨i, j, hij, hj, hit, hjt⟩
  have hjub : j < upperBound tr.times t :=
    lt_upperBound_of_getD_le hsort hj (le_of_eq hjt)
  have hub1 : 1 ≤ upperBound tr.times t := Nat.lt_of_le_of_lt (Nat.zero_le _) hjub
  have hubn : upperBound tr.times t ≤ tr.times.length := upperBound_le_length tr.times t
  have hn0 : tr.times.length ≠ 0 := by omega
  have hkn : upperBound tr.times t - 1 < tr.times.length := by omega
  have hkt : tr.times.getD (upperBound tr.times t - 1) 0 = t := by
    have hle : tr.times.getD (upperBound tr.times t - 1) 0 ≤ t :=
      getD_le_of_lt_upperBound (by omega)
    have hge : t ≤ tr.times.getD (upperBound tr.times t - 1) 0 := by
      have hjk : j ≤ upperBound tr.times t - 1 := by omega
      calc t = tr.times.getD j 0 := hjt.symm
        _ ≤ tr.times.getD (upperBound tr.times t - 1) 0 :=
          getD_mono_of_sorted hsort hjk hkn
    exact le_antisymm hle hge
  refine ⟨hkt, ?_, ?_, ?_⟩
  · intro m hkm hm
    have hubm : upperBound tr.times t ≤ m := by omega
    have hubln : upperBound tr.times t < tr.times.length := by omega
    have h1 : t < tr.times.getD (upperBound tr.times t) 0 := lt_getD_upperBound hubln
    have h2 : tr.times.getD (upperBound tr.times t) 0 ≤ tr.times.getD m 0 :=
      getD_mono_of_sorted hsort hubm hm
    exact ne_of_gt (lt_of_lt_of_le h1 h2)
  · simp only [Core.evaluateNumberTrack]
    rw [if_neg hn0, if_neg (by omega : ¬ upperBound tr.times t = 0)]
    by_cases hnr : tr.times.length ≤ upperBound tr.times t
    · rw [if_pos hnr]
    · rw [if_neg hnr]
      have halpha : (t - tr.times.getD (upperBound tr.times t - 1) 0) /
          (tr.times.getD (upperBound tr.times t) 0 -
            tr.times.getD (upperBound tr.times t - 1) 0) = 0 := by
        rw [hkt, sub_self, zero_div]
      rw [halpha]
      simp [lerp]
  · simp only [Core.evaluateEnumTrack]
    rw [if_neg hn0, if_neg (by omega : ¬ upperBound tr.times t = 0)]

theorem eval_at_duplicate_time_prefers_last_witness :
    sampleDupTrack.times.Pairwise (· ≤ ·) ∧
    sampleDupTrack.times.length = sampleDupTrack.elements.length ∧
    ((1 : ℕ) < 2 ∧ (2 : ℕ) < sampleDupTrack.times.length ∧
      sampleDupTrack.times.getD 1 0 = 1 ∧ sampleDupTrack.times.getD 2 0 = 1) ∧
    sampleDupTrack.times.getD (upperBound sampleDupTrack.times 1 - 1) 0 = 1 ∧
    Core.evaluateNumberTrack sampleDupTrack 1 =
      clamp ((sampleDupTrack.elements.getD (upperBound sampleDupTrack.times 1 - 1) default).asNum)
        sampleDupTrack.low sampleDupTrack.high ∧
    Core.evaluateEnumTrack sampleDupTrack 1 =
      (sampleDupTrack.elements.getD (upperBound sampleDupTrack.times 1 - 1) default).asStr ∧
    upperBound sampleDupTrack.times 1 - 1 = 2 ∧
    sampleDupTrack.elements.getD 2 default = Element.num 7 := by
  have h := eval_at_duplicate_time_prefers_last sampleDupTrack 1
    (by decide) rfl ⟨1, 2, by decide, by decide, by decide, by decide⟩
  exact ⟨by decide, rfl, ⟨by decide, by decide, by decide, by decide⟩,
    h.1, h.2.2.1, h.2.2.2, by decide, by decide⟩

/-- C7: `addTrack` on a name collision returns false and performs no
mutation at all: the resulting state is the argument state. -/
theorem addTrack_name_collision
    (s : Core) (d : TrackDef)
    (h : mapHas s.tracksByName d.name = true) :
    s.addTrack d = (s, false) := by
  rw [Core.addTrack, if_pos h]

/-- The state after adding a track named "a" to a fresh core. -/
def coreWithA : Core :=
  ((Core.init none).addTrack
    ⟨"a", TrackType.number, [], true, false, false, none, none⟩).1

theorem addTrack_name_collision_witness :
    mapHas coreWithA.tracksByName "a" = true ∧
    coreWithA.addTrack ⟨"a", TrackType.number, [], true, false, false, none, none⟩ =
      (coreWithA, false) ∧
    coreWithA.tracksByName.length = 1 :=
  ⟨by decide,
   addTrack_name_collision coreWithA
     ⟨"a", TrackType.number, [], true, false, false, none, none⟩ (by decide),
   by decide⟩

theorem last_elem_spec (l : List ℚ) (τmax : ℚ) (h : l.getLast? = some τmax) :
    0 < l.length ∧ l.getD (l.length - 1) 0 = τmax := by
  cases l with
  | nil => simp at h
  | cons x xs =>
      refine ⟨by simp, ?_⟩
      rw [List.getLast?_eq_getElem?] at h
      have hlt : (x :: xs).length - 1 < (x :: xs).length := by simp
      rw [List.getD_eq_getElem _ _ hlt]
      rw [List.getElem?_eq_getElem hlt] at h
      exact Option.some.inj h

/-- C8: successful `addTrack` stably sorts the data by time, installs a
runtime with non-decreasing parallel arrays, default-or-supplied bounds,
a fresh counter-derived id appended to the ordered list, appends the
entry to the track map, and extends the duration by the unit margin only
when needed. -/
theorem addTrack_success
    (s : Core) (d : TrackDef)
    (h : mapHas s.tracksByName d.name = false) :
    (s.addTrack d).2 = true ∧
    ∃ rt : TrackRuntime,
      (s.addTrack d).1.tracksByName = s.tracksByName ++ [(d.name, rt)] ∧
      rt.def_ = d ∧
      rt.times = (sortByTime d.data).map (fun x => x.time) ∧
      rt.elements = (sortByTime d.data).map (fun x => x.element) ∧
      rt.times.Pairwise (· ≤ ·) ∧
      rt.times.length = rt.elements.length ∧
      (sortByTime d.data).Perm d.data ∧
      (∀ τ : ℚ, (sortByTime d.data).filter (fun x => decide (x.time = τ)) =
        d.data.filter (fun x => decide (x.time = τ))) ∧
      rt.low = d.low.getD DEFAULT_NUMBER_LOW ∧
      rt.high = d.high.getD DEFAULT_NUMBER_HIGH ∧
      rt.id = mkTrackId (s.counter + 1) ∧
      (s.addTrack d).1.counter = s.counter + 1 ∧
      (s.addTrack d).1.orderedTrackIds = s.orderedTrackIds ++ [rt.id] ∧
      (d.data = [] → (s.addTrack d).1.duration = s.duration) ∧
      (∀ τmax, rt.times.getLast? = some τmax →
        (∀ τ ∈ rt.times, τ ≤ τmax) ∧
        (s.duration < τmax + 1 → (s.addTrack d).1.duration = τmax + 1) ∧
        (τmax + 1 ≤ s.duration → (s.addTrack d).1.duration = s.duration)) := by
  have hcond : ¬ (mapHas s.tracksByName d.name = true) := by simp [h]
  have heq : s.addTrack d =
      ({ s with
          tracksByName := s.tracksByName ++
            [(d.name, ⟨mkTrackId (s.counter + 1), d,
              (sortByTime d.data).map (fun x => x.time),
              (sortByTime d.data).map (fun x => x.element),
              d.low.getD DEFAULT_NUMBER_LOW, d.high.getD DEFAULT_NUMBER_HIGH⟩)]
          orderedTrackIds := s.orderedTrackIds ++ [mkTrackId (s.counter + 1)]
          duration :=
            if 0 < ((sortByTime d.data).map (fun x => x.time)).length then
              if s.duration <
                  ((sortByTime d.data).map (fun x => x.time)).getD
                    (((sortByTime d.data).map (fun x => x.time)).length - 1) 0 + 1 then
                ((sortByTime d.data).map (fun x => x.time)).getD
                  (((sortByTime d.data).map (fun x => x.time)).length - 1) 0 + 1
              else s.duration
            else s.duration
          counter := s.counter + 1 }, true) := by
    rw [Core.addTrack, if_neg hcond]
  rw [heq]
  refine ⟨rfl, ⟨_, rfl, rfl, rfl, rfl, ?_, by simp, sortByTime_perm d.data,
    fun τ => sortByTime_filter_time d.data τ, rfl, rfl, rfl, rfl, rfl, ?_, ?_⟩⟩
  · exact List.pairwise_map.2 (sortByTime_pairwise d.data)
  · intro hnil
    rw [hnil]
    rfl
  · intro τmax hlast
    obtain ⟨hpos, hgd⟩ := last_elem_spec _ _ hlast
    refine ⟨?_, ?_, ?_⟩
    · intro τ hτ
      rcases List.mem_iff_get.1 hτ with ⟨⟨i, hi⟩, rfl⟩
      have h1 : ((sortByTime d.data).map (fun x => x.time)).get ⟨i, hi⟩ =
          ((sortByTime d.data).map (fun x => x.time)).getD i 0 :=
        (List.getD_eq_getElem _ 0 hi).symm
      rw [h1, ← hgd]
      exact getD_mono_of_sorted (List.pairwise_map.2 (sortByTime_pairwise d.data))
        (Nat.le_sub_one_of_lt hi) (Nat.sub_lt hpos Nat.one_pos)
    · intro hlt
      show (if 0 < ((sortByTime d.data).map (fun x => x.time)).length then _ else _) = _
      rw [if_pos hpos, hgd, if_pos hlt]
    · intro hge
      show (if 0 < ((sortByTime d.data).map (fun x => x.time)).length then _ else _) = _
      rw [if_pos hpos, hgd, if_neg (not_lt_of_le hge)]

theorem addTrack_success_witness :
    mapHas (Core.init none).tracksByName "d" = false ∧
    ((Core.init none).addTrack sampleDupDef).2 = true ∧
    ((Core.init none).addTrack sampleDupDef).1.tracksByName.length = 1 ∧
    (sortByTime sampleDupDef.data).map (fun x => x.time) = [0, 1, 1, 2] ∧
    (sortByTime sampleDupDef.data).map (fun x => x.element) =
      [Element.num 0, Element.num 3, Element.num 7, Element.num 9] := by
  have h := addTrack_success (Core.init none) sampleDupDef (by decide)
  exact ⟨by decide, h.1, by decide, by decide, by decide⟩

/-- Modelled from the spec: the HistoryManager of §4.6 is absent from
the sources (only its callers `pushSnapshot`/`undo`/`redo` appear in the
editing UI).  A `World` is the mutable state a snapshot captures:
element arrays and bounds (inside the runtimes) plus track
presence/order. -/
structure World where
  tracksByName : List (String × TrackRuntime)
  orderedTrackIds : List String
deriving DecidableEq, Repr

/-- Modelled from the spec (§4.6): the undo/redo stacks around the
canonical current state. -/
structure History where
  current : World
  undoStack : List World
  redoStack : List World
deriving DecidableEq, Repr

/-- Modelled from the spec (§4.6): `pushSnapshot()` copies the current
state onto the undo stack and clears the redo stack. -/
def pushSnapshot (h : History) : History :=
  ⟨h.current, h.current :: h.undoStack, []⟩

/-- Modelled from the spec (§4.6): `undo()` pops the most recent
snapshot, pushes the current state onto redo, restores the snapshot and
returns true; on an empty stack returns false and changes nothing. -/
def undo (h : History) : History × Bool :=
  match h.undoStack with
  | [] => (h, false)
  | w :: rest => (⟨w, rest, h.current :: h.redoStack⟩, true)

/-- Modelled from the spec (§4.6): `redo()` — the symmetric inverse of
`undo()`. -/
def redo (h : History) : History × Bool :=
  match h.redoStack with
  | [] => (h, false)
  | w :: rest => (⟨w, h.current :: h.undoStack, rest⟩, true)

/-- A committed mutation per §4.5/§4.6: every committing edit is
preceded by a `pushSnapshot()` and then replaces the canonical state. -/
def commit (h : History) (m : World → World) : History :=
  { pushSnapshot h with current := m (pushSnapshot h).current }

/-- C9: `pushSnapshot(); mutate(); undo()` returns true and restores the
exact pre-mutation state; `redo()` then returns true and restores the
mutated state; `undo()`/`redo()` on empty stacks return false and leave
the state unchanged. -/
theorem undo_redo_round_trip (h : History) (m : World → World)
    (h₀ : History) (hu : h₀.undoStack = []) (hr : h₀.redoStack = []) :
    (undo (commit h m)).2 = true ∧
    (undo (commit h m)).1.current = h.current ∧
    (redo (undo (commit h m)).1).2 = true ∧
    (redo (undo (commit h m)).1).1.current = m h.current ∧
    undo h₀ = (h₀, false) ∧
    redo h₀ = (h₀, false) := by
  refine ⟨rfl, rfl, rfl, rfl, ?_, ?_⟩
  · rw [undo, hu]
  · rw [redo, hr]

theorem undo_redo_round_trip_witness :
    (⟨⟨[], []⟩, [], []⟩ : History).undoStack = [] ∧
    (⟨⟨[], []⟩, [], []⟩ : History).redoStack = [] ∧
    (undo (commit ⟨⟨[], []⟩, [], []⟩
      (fun _ => ⟨[("n", sampleNumTrack)], ["track_1"]⟩))).2 = true ∧
    (undo (commit ⟨⟨[], []⟩, [], []⟩
      (fun _ => ⟨[("n", sampleNumTrack)], ["track_1"]⟩))).1.current =
      (⟨[], []⟩ : World) ∧
    (redo (undo (commit ⟨⟨[], []⟩, [], []⟩
      (fun _ => ⟨[("n", sampleNumTrack)], ["track_1"]⟩))).1).2 = true ∧
    (redo (undo (commit ⟨⟨[], []⟩, [], []⟩
      (fun _ => ⟨[("n", sampleNumTrack)], ["track_1"]⟩))).1).1.current =
      (⟨[("n", sampleNumTrack)], ["track_1"]⟩ : World) ∧
    undo (⟨⟨[], []⟩, [], []⟩ : History) = (⟨⟨[], []⟩, [], []⟩, false) ∧
    redo (⟨⟨[], []⟩, [], []⟩ : History) = (⟨⟨[], []⟩, [], []⟩, false) := by
  have h := undo_redo_round_trip ⟨⟨[], []⟩, [], []⟩
    (fun _ => ⟨[("n", sampleNumTrack)], ["track_1"]⟩) ⟨⟨[], []⟩, [], []⟩ rfl rfl
  exact ⟨rfl, rfl, h.1, h.2.1, h.2.2.1, h.2.2.2.1, h.2.2.2.2.1, h.2.2.2.2.2⟩

/-- A `TrackDef` whose `data` field is a reference into an explicit
array heap, used to make the aliasing behavior of `addTrack` visible:
JS object fields hold array references, not array values. -/
structure TrackDefRef where
  name : String
  fieldType : TrackType
  dataRef : Nat
  hasUpdateNumber : Bool
  hasUpdateEnum : Bool
  hasUpdateFunc : Bool
  low : Option ℚ
  high : Option ℚ
deriving DecidableEq, Repr

/-- `Core.addTrack` over an explicit heap of arrays, embedding the
mutation behavior of `core.ts` lines 44-88: `[...def.data]` (line 51)
allocates a fresh copy of the caller's array at a fresh address, and
`.sort(...)` writes the sorted permutation back to that fresh address
only; the caller's array at `dataRef` is read but never written. -/
def Core.addTrackAlloc (s : Core) (heap : List (List TrackDatum)) (d : TrackDefRef) :
    Core × List (List TrackDatum) × Bool :=
  if mapHas s.tracksByName d.name then (s, heap, false)
  else
    let copyAddr := heap.length
    let heap1 := heap ++ [heap.getD d.dataRef []]
    let heap2 := heap1.set copyAddr (sortByTime (heap1.getD copyAddr []))
    let sortedData := heap2.getD copyAddr []
    let times := sortedData.map fun datum => datum.time
    let elements := sortedData.map fun datum => datum.element
    let low := d.low.getD DEFAULT_NUMBER_LOW
    let high := d.high.getD DEFAULT_NUMBER_HIGH
    let id := mkTrackId (s.counter + 1)
    let defNow : TrackDef := ⟨d.name, d.fieldType, heap2.getD d.dataRef [],
      d.hasUpdateNumber, d.hasUpdateEnum, d.hasUpdateFunc, d.low, d.high⟩
    let rt : TrackRuntime := ⟨id, defNow, times, elements, low, high⟩
    let duration' :=
      if 0 < times.length then
        if s.duration < times.getD (times.length - 1) 0 + 1 then
          times.getD (times.length - 1) 0 + 1
        else s.duration
      else s.duration
    ({ s with
        tracksByName := s.tracksByName ++ [(d.name, rt)]
        orderedTrackIds := s.orderedTrackIds ++ [id]
        duration := duration'
        counter := s.counter + 1 }, heap2, true)

/-- C10: `addTrack` never mutates the caller's `def.data` array: whether
it succeeds or fails, the heap cell the caller's reference points at is
unchanged — same length, same entries, same order. -/
theorem addTrack_does_not_mutate_caller_data
    (s : Core) (heap : List (List TrackDatum)) (d : TrackDefRef)
    (hv : d.dataRef < heap.length) :
    (s.addTrackAlloc heap d).2.1.getD d.dataRef [] = heap.getD d.dataRef [] := by
  rw [Core.addTrackAlloc]
  split
  · rfl
  · show ((heap ++ [heap.getD d.dataRef []]).set heap.length
        (sortByTime ((heap ++ [heap.getD d.dataRef []]).getD heap.length []))).getD
        d.dataRef [] = heap.getD d.dataRef []
    rw [List.getD_eq_getElem?_getD, List.getD_eq_getElem?_getD,
      List.getElem?_set_ne (ne_of_gt hv), List.getElem?_append, if_pos hv]

theorem addTrack_does_not_mutate_caller_data_witness :
    (0 : ℕ) < ([[⟨2, Element.num 5⟩, ⟨0, Element.num 3⟩]] :
      List (List TrackDatum)).length ∧
    ((Core.init none).addTrackAlloc [[⟨2, Element.num 5⟩, ⟨0, Element.num 3⟩]]
        ⟨"a", TrackType.number, 0, true, false, false, none, none⟩).2.1.getD 0 [] =
      ([[⟨2, Element.num 5⟩, ⟨0, Element.num 3⟩]] :
        List (List TrackDatum)).getD 0 [] ∧
    ((Core.init none).addTrackAlloc [[⟨2, Element.num 5⟩, ⟨0, Element.num 3⟩]]
        ⟨"a", TrackType.number, 0, true, false, false, none, none⟩).2.1 =
      [[⟨2, Element.num 5⟩, ⟨0, Element.num 3⟩],
       [⟨0, Element.num 3⟩, ⟨2, Element.num 5⟩]] := by
  have h := addTrack_does_not_mutate_caller_data (Core.init none)
    [[⟨2, Element.num 5⟩, ⟨0, Element.num 3⟩]]
    ⟨"a", TrackType.number, 0, true, false, false, none, none⟩ (by decide)
  exact ⟨by decide, h, by decide⟩

end AnimEditor
